import Mathlib

/-!
Verification of the geometric layout core of the chart-building repository:
the squarified treemap solver (`scripts/treemap/builder.py`), the Sankey flow
layout (`scripts/sankey/builder.py`), the graph auto-layout lane assignment
(`scripts/flow/builder.py`), the radial sunburst partition
(`charts/sunburst/builder.py`) and the funnel width computation
(`charts/funnel/builder.py`).

Machine floats are modelled by exact rationals (`ℚ`); where a claim hinges on
IEEE special values (division by a zero normalization base in the funnel
builder), a small numpy-value type with NaN and infinities is used instead.
-/

namespace ChartLayout

/-- A rectangle `(x, y, w, h)` as produced by the squarify solver. -/
structure Rect where
  x : ℚ
  y : ℚ
  w : ℚ
  h : ℚ
deriving DecidableEq, Repr

/-- Area of a rectangle. -/
def Rect.area (r : Rect) : ℚ := r.w * r.h

/-- Two rectangles do not overlap: one lies entirely to the left of, right of,
below, or above the other (shared boundary edges allowed). -/
def NoOverlap (a b : Rect) : Prop :=
  a.x + a.w ≤ b.x ∨ b.x + b.w ≤ a.x ∨ a.y + a.h ≤ b.y ∨ b.y + b.h ≤ a.y

instance (a b : Rect) : Decidable (NoOverlap a b) := by
  unfold NoOverlap; infer_instance

/-- `r` lies inside the rectangle `outer`. -/
def InRect (outer r : Rect) : Prop :=
  outer.x ≤ r.x ∧ outer.y ≤ r.y ∧
  r.x + r.w ≤ outer.x + outer.w ∧ r.y + r.h ≤ outer.y + outer.h

instance (a b : Rect) : Decidable (InRect a b) := by
  unfold InRect; infer_instance

/-! ### Squarify solver, from `scripts/treemap/builder.py`, `_squarify` -/

/-- Python `max(row)` on a nonempty list (`max_Q [] = 0`, never used on `[]`). -/
def maxQ : List ℚ → ℚ
  | [] => 0
  | v :: vs => vs.foldl max v

/-- Python `min(row)` on a nonempty list (`min_Q [] = 0`, never used on `[]`). -/
def minQ : List ℚ → ℚ
  | [] => 0
  | v :: vs => vs.foldl min v

/-- `worst_ratio` from `_squarify` (lines 15-18):
`max((W**2)*m/(s**2), (s**2)/(W**2*n))` with `s = sum(row)`, `m = max(row)`,
`n = min(row)`.  The Python function returns `inf` for an empty row; that
branch is unreachable in `_squarify` as embedded below, because the
empty-row test of the acceptance condition is short-circuited first. -/
def worstRatio (row : List ℚ) (W : ℚ) : ℚ :=
  max (W ^ 2 * maxQ row / (row.sum) ^ 2) ((row.sum) ^ 2 / (W ^ 2 * minQ row))

/-- One horizontal strip of `layout` (lines 21-28): the strip height is
`hh = sum(row)/W`, each value `r` gets width `ww = r/hh`, rectangles are
emitted left to right starting at `xx`, shrunk by the padding `p`. -/
def layoutRowH (p : ℚ) : List ℚ → ℚ → ℚ → ℚ → List Rect
  | [], _, _, _ => []
  | r :: rs, xx, y, hh =>
    ⟨xx + p, y + p, r / hh - 2 * p, hh - 2 * p⟩ :: layoutRowH p rs (xx + r / hh) y hh

/-- One vertical strip of `layout` (lines 29-36): the strip width is
`ww = sum(row)/H`, each value `r` gets height `hh = r/ww`, rectangles are
emitted top to bottom starting at `yy`. -/
def layoutRowV (p : ℚ) : List ℚ → ℚ → ℚ → ℚ → List Rect
  | [], _, _, _ => []
  | r :: rs, x, yy, ww =>
    ⟨x + p, yy + p, ww - 2 * p, r / ww - 2 * p⟩ :: layoutRowV p rs x (yy + r / ww) ww

/-- A closed row of the squarify loop: the row's values, the remaining
sub-rectangle at the moment the row was laid out, and the orientation flag. -/
structure FlushEv where
  row : List ℚ
  x : ℚ
  y : ℚ
  w : ℚ
  h : ℚ
  horiz : Bool
deriving DecidableEq, Repr

/-- The rectangles emitted for one closed row by `layout`. -/
def layoutRow (p : ℚ) (ev : FlushEv) : List Rect :=
  if ev.horiz then layoutRowH p ev.row ev.x ev.y (ev.row.sum / ev.w)
  else layoutRowV p ev.row ev.x ev.y (ev.row.sum / ev.h)

/-- The updated remaining sub-rectangle returned by `layout`:
`(x, y+hh, W, H-hh)` for a horizontal strip, `(x+ww, y, W-ww, H)` for a
vertical one. -/
def nextRect (row : List ℚ) (x y W H : ℚ) (horiz : Bool) : ℚ × ℚ × ℚ × ℚ :=
  if horiz then (x, y + row.sum / W, W, H - row.sum / W)
  else (x + row.sum / H, y, W - row.sum / H, H)

/-- The main loop of `_squarify` (lines 37-48), reported as the sequence of
closed rows.  When a value is rejected, the row is flushed and the next
iteration (with the now-empty row) necessarily accepts the rejected value,
so the flush step restarts the row at `[v]` directly. -/
def squarifyAux (row : List ℚ) (x y cw ch : ℚ) (horiz : Bool) :
    List ℚ → List FlushEv
  | [] => if row = [] then [] else [⟨row, x, y, cw, ch, horiz⟩]
  | v :: rest =>
    if row = [] then squarifyAux [v] x y cw ch horiz rest
    else if worstRatio (row ++ [v]) (min cw ch) ≤ worstRatio row (min cw ch) then
      squarifyAux (row ++ [v]) x y cw ch horiz rest
    else
      match nextRect row x y cw ch horiz with
      | (x1, y1, w1, h1) =>
        ⟨row, x, y, cw, ch, horiz⟩ :: squarifyAux [v] x1 y1 w1 h1 (!horiz) rest

/-- Value normalization of `_squarify` (line 13): `vals / vals.sum() * (w*h)`. -/
def normalizeVals (values : List ℚ) (w h : ℚ) : List ℚ :=
  values.map (fun v => v / values.sum * (w * h))

/-- `_squarify(values, x, y, w, h, padding)`: normalize the values to the
container area, run the row loop starting with a horizontal orientation, and
emit the rectangles of each closed row in order. -/
def _squarify (values : List ℚ) (x y w h padding : ℚ) : List Rect :=
  (squarifyAux [] x y w h true (normalizeVals values w h)).flatMap (layoutRow padding)

/-! ### Helper lemmas about the strip layouts (padding 0) -/

lemma InRect_trans {A B r : Rect} (hBA : InRect B A) (hAr : InRect A r) : InRect B r :=
  ⟨le_trans hBA.1 hAr.1, le_trans hBA.2.1 hAr.2.1,
   le_trans hAr.2.2.1 hBA.2.2.1, le_trans hAr.2.2.2 hBA.2.2.2⟩

lemma layoutRowH_map_area {hh : ℚ} (hne : hh ≠ 0) :
    ∀ (row : List ℚ) (xx y : ℚ), (layoutRowH 0 row xx y hh).map Rect.area = row
  | [], _, _ => rfl
  | r :: rs, xx, y => by
    simp only [layoutRowH, List.map_cons, Rect.area, layoutRowH_map_area hne rs]
    congr 1
    field_simp

lemma layoutRowH_bounds {hh : ℚ} (hpos : 0 < hh) :
    ∀ (row : List ℚ), (∀ v ∈ row, 0 < v) → ∀ (xx y : ℚ),
      ∀ r ∈ layoutRowH 0 row xx y hh,
        r.y = y ∧ r.h = hh ∧ xx ≤ r.x ∧ r.x + r.w ≤ xx + row.sum / hh ∧ 0 < r.w := by
  intro row
  induction row with
  | nil => intro _ xx y r hr; simp [layoutRowH] at hr
  | cons v vs ih =>
    intro hv xx y r hr
    have hv0 : 0 < v := hv v (by simp)
    have hvs : ∀ u ∈ vs, 0 < u := fun u hu => hv u (by simp [hu])
    have hsum : 0 ≤ vs.sum := List.sum_nonneg (fun u hu => le_of_lt (hvs u hu))
    have hvd : 0 < v / hh := div_pos hv0 hpos
    have hsd : 0 ≤ vs.sum / hh := div_nonneg hsum (le_of_lt hpos)
    have hdiv : (v + vs.sum) / hh = v / hh + vs.sum / hh := add_div v vs.sum hh
    simp only [layoutRowH, List.mem_cons] at hr
    rcases hr with hr | hr
    · subst hr
      refine ⟨?_, ?_, ?_, ?_, ?_⟩
      · simp
      · simp
      · simp
      · simp only [List.sum_cons, add_zero, mul_zero, sub_zero]
        rw [hdiv]; linarith
      · simp only [mul_zero, sub_zero]
        linarith
    · obtain ⟨h1, h2, h3, h4, h5⟩ := ih hvs (xx + v / hh) y r hr
      simp only [List.sum_cons]
      exact ⟨h1, h2, by linarith, by rw [hdiv]; linarith, h5⟩

lemma layoutRowH_pairwise {hh : ℚ} (hpos : 0 < hh) :
    ∀ (row : List ℚ), (∀ v ∈ row, 0 < v) → ∀ (xx y : ℚ),
      (layoutRowH 0 row xx y hh).Pairwise NoOverlap := by
  intro row
  induction row with
  | nil => intro _ xx y; simp [layoutRowH]
  | cons v vs ih =>
    intro hv xx y
    have hvs : ∀ u ∈ vs, 0 < u := fun u hu => hv u (by simp [hu])
    simp only [layoutRowH, List.pairwise_cons]
    constructor
    · intro r hr
      have hb := layoutRowH_bounds hpos vs hvs (xx + v / hh) y r hr
      left
      simp only [add_zero, mul_zero, sub_zero]
      linarith [hb.2.2.1]
    · exact ih hvs (xx + v / hh) y

lemma layoutRowV_map_area {ww : ℚ} (hne : ww ≠ 0) :
    ∀ (row : List ℚ) (x yy : ℚ), (layoutRowV 0 row x yy ww).map Rect.area = row
  | [], _, _ => rfl
  | r :: rs, x, yy => by
    simp only [layoutRowV, List.map_cons, Rect.area, layoutRowV_map_area hne rs]
    congr 1
    field_simp

lemma layoutRowV_bounds {ww : ℚ} (hpos : 0 < ww) :
    ∀ (row : List ℚ), (∀ v ∈ row, 0 < v) → ∀ (x yy : ℚ),
      ∀ r ∈ layoutRowV 0 row x yy ww,
        r.x = x ∧ r.w = ww ∧ yy ≤ r.y ∧ r.y + r.h ≤ yy + row.sum / ww ∧ 0 < r.h := by
  intro row
  induction row with
  | nil => intro _ x yy r hr; simp [layoutRowV] at hr
  | cons v vs ih =>
    intro hv x yy r hr
    have hv0 : 0 < v := hv v (by simp)
    have hvs : ∀ u ∈ vs, 0 < u := fun u hu => hv u (by simp [hu])
    have hsum : 0 ≤ vs.sum := List.sum_nonneg (fun u hu => le_of_lt (hvs u hu))
    have hvd : 0 < v / ww := div_pos hv0 hpos
    have hsd : 0 ≤ vs.sum / ww := div_nonneg hsum (le_of_lt hpos)
    have hdiv : (v + vs.sum) / ww = v / ww + vs.sum / ww := add_div v vs.sum ww
    simp only [layoutRowV, List.mem_cons] at hr
    rcases hr with hr | hr
    · subst hr
      refine ⟨?_, ?_, ?_, ?_, ?_⟩
      · simp
      · simp
      · simp
      · simp only [List.sum_cons, add_zero, mul_zero, sub_zero]
        rw [hdiv]; linarith
      · simp only [mul_zero, sub_zero]
        linarith
    · obtain ⟨h1, h2, h3, h4, h5⟩ := ih hvs x (yy + v / ww) r hr
      simp only [List.sum_cons]
      exact ⟨h1, h2, by linarith, by rw [hdiv]; linarith, h5⟩

lemma layoutRowV_pairwise {ww : ℚ} (hpos : 0 < ww) :
    ∀ (row : List ℚ), (∀ v ∈ row, 0 < v) → ∀ (x yy : ℚ),
      (layoutRowV 0 row x yy ww).Pairwise NoOverlap := by
  intro row
  induction row with
  | nil => intro _ x yy; simp [layoutRowV]
  | cons v vs ih =>
    intro hv x yy
    have hvs : ∀ u ∈ vs, 0 < u := fun u hu => hv u (by simp [hu])
    simp only [layoutRowV, List.pairwise_cons]
    constructor
    · intro r hr
      have hb := layoutRowV_bounds hpos vs hvs x (yy + v / ww) r hr
      right; right; left
      simp only [add_zero, mul_zero, sub_zero]
      linarith [hb.2.2.1]
    · exact ih hvs x (yy + v / ww)

/-- Main invariant of the squarify loop with padding 0: if the values still to
be placed (current row plus remaining input) are positive and sum to the area
of the current remaining sub-rectangle, the emitted rectangles have exactly
those values as areas (in order), lie inside the remaining sub-rectangle, and
are pairwise non-overlapping. -/
lemma squarifyAux_spec :
    ∀ (rest row : List ℚ) (x y W H : ℚ) (horiz : Bool),
      (∀ v ∈ row, 0 < v) → (∀ v ∈ rest, 0 < v) → 0 < W → 0 < H →
      row.sum + rest.sum = W * H →
      (((squarifyAux row x y W H horiz rest).flatMap (layoutRow 0)).map Rect.area
          = row ++ rest) ∧
      (∀ r ∈ (squarifyAux row x y W H horiz rest).flatMap (layoutRow 0),
          InRect ⟨x, y, W, H⟩ r) ∧
      ((squarifyAux row x y W H horiz rest).flatMap (layoutRow 0)).Pairwise NoOverlap := by
  intro rest
  induction rest with
  | nil =>
    intro row x y W H horiz hrow _ hW hH hsum
    have hW0 : W ≠ 0 := ne_of_gt hW
    have hH0 : H ≠ 0 := ne_of_gt hH
    by_cases hrc : row = []
    · subst hrc; simp [squarifyAux]
    · have hs : 0 < row.sum := List.sum_pos row hrow hrc
      have hWH : row.sum = W * H := by simpa using hsum
      simp only [squarifyAux, if_neg hrc, List.flatMap_cons, List.flatMap_nil,
        List.append_nil]
      cases horiz
      · -- final vertical flush: strip width ww = s/H = W fills the rectangle
        have hww : row.sum / H = W := by rw [hWH]; field_simp
        have hwwpos : 0 < row.sum / H := by rw [hww]; exact hW
        have hsw : row.sum / (row.sum / H) = H := by
          rw [hww, hWH]; field_simp
        have hlr : layoutRow 0 ⟨row, x, y, W, H, false⟩
            = layoutRowV 0 row x y (row.sum / H) := by
          simp [layoutRow]
        rw [hlr]
        refine ⟨by simpa using layoutRowV_map_area (ne_of_gt hwwpos) row x y, ?_, ?_⟩
        · intro r hr
          obtain ⟨h1, h2, h3, h4, _⟩ := layoutRowV_bounds hwwpos row hrow x y r hr
          refine ⟨le_of_eq h1.symm, h3, ?_, ?_⟩
          · rw [h1, h2, hww]
          · rw [hsw] at h4; exact h4
        · exact layoutRowV_pairwise hwwpos row hrow x y
      · -- final horizontal flush: strip height hh = s/W = H fills the rectangle
        have hhh : row.sum / W = H := by rw [hWH]; field_simp
        have hhhpos : 0 < row.sum / W := by rw [hhh]; exact hH
        have hsw : row.sum / (row.sum / W) = W := by
          rw [hhh, hWH]; field_simp
        have hlr : layoutRow 0 ⟨row, x, y, W, H, true⟩
            = layoutRowH 0 row x y (row.sum / W) := by
          simp [layoutRow]
        rw [hlr]
        refine ⟨by simpa using layoutRowH_map_area (ne_of_gt hhhpos) row x y, ?_, ?_⟩
        · intro r hr
          obtain ⟨h1, h2, h3, h4, _⟩ := layoutRowH_bounds hhhpos row hrow x y r hr
          refine ⟨h3, le_of_eq h1.symm, ?_, ?_⟩
          · rw [hsw] at h4; exact h4
          · rw [h1, h2, hhh]
        · exact layoutRowH_pairwise hhhpos row hrow x y
  | cons v rest ih =>
    intro row x y W H horiz hrow hrest hW hH hsum
    have hv : 0 < v := hrest v (by simp)
    have hrest' : ∀ u ∈ rest, 0 < u := fun u hu => hrest u (by simp [hu])
    have hrsum : 0 ≤ rest.sum := List.sum_nonneg (fun u hu => le_of_lt (hrest' u hu))
    have hW0 : W ≠ 0 := ne_of_gt hW
    have hH0 : H ≠ 0 := ne_of_gt hH
    by_cases hrc : row = []
    · subst hrc
      simp only [squarifyAux, if_pos rfl]
      have hres := ih [v] x y W H horiz
        (by intro u hu; simp at hu; subst hu; exact hv) hrest' hW hH
        (by simp at hsum ⊢; linarith)
      simpa using hres
    · by_cases hacc : worstRatio (row ++ [v]) (min W H) ≤ worstRatio row (min W H)
      · simp only [squarifyAux, if_neg hrc, if_pos hacc]
        have hres := ih (row ++ [v]) x y W H horiz
          (by intro u hu
              rcases List.mem_append.mp hu with h | h
              · exact hrow u h
              · simp at h; subst h; exact hv)
          hrest' hW hH
          (by simp [List.sum_append] at hsum ⊢; linarith)
        simpa [List.append_assoc] using hres
      · -- the row is closed and laid out as a strip
        have hs : 0 < row.sum := List.sum_pos row hrow hrc
        have hs0 : row.sum ≠ 0 := ne_of_gt hs
        have hvr : 0 < v + rest.sum := by linarith
        have hsum' : row.sum + (v + rest.sum) = W * H := by simpa using hsum
        cases horiz
        · -- vertical strip, recursion continues to its right
          have hwwpos : 0 < row.sum / H := div_pos hs hH
          have hwwlt : row.sum / H < W := by
            rw [div_lt_iff hH]; nlinarith
          have hW' : 0 < W - row.sum / H := by linarith
          have hsw : row.sum / (row.sum / H) = H := by field_simp
          have hunfold : squarifyAux row x y W H false (v :: rest)
              = ⟨row, x, y, W, H, false⟩ ::
                squarifyAux [v] (x + row.sum / H) y (W - row.sum / H) H true rest := by
            simp [squarifyAux, if_neg hrc, if_neg hacc, nextRect]
          have hres := ih [v] (x + row.sum / H) y (W - row.sum / H) H true
            (by intro u hu; simp at hu; subst hu; exact hv) hrest' hW' hH
            (by have harea : (W - row.sum / H) * H = W * H - row.sum := by
                  field_simp
                simp only [List.sum_cons, List.sum_nil, harea]; linarith)
          obtain ⟨ihA, ihI, ihP⟩ := hres
          have hlr : layoutRow 0 ⟨row, x, y, W, H, false⟩
              = layoutRowV 0 row x y (row.sum / H) := by
            simp [layoutRow]
          have hinner : InRect ⟨x, y, W, H⟩
              ⟨x + row.sum / H, y, W - row.sum / H, H⟩ := by
            refine ⟨?_, ?_, ?_, ?_⟩ <;> simp <;> linarith
          rw [hunfold]
          simp only [List.flatMap_cons, hlr]
          refine ⟨?_, ?_, ?_⟩
          · rw [List.map_append, layoutRowV_map_area (ne_of_gt hwwpos) row x y, ihA]
            simp
          · intro r hr
            rcases List.mem_append.mp hr with hr | hr
            · obtain ⟨h1, h2, h3, h4, _⟩ := layoutRowV_bounds hwwpos row hrow x y r hr
              refine ⟨le_of_eq h1.symm, h3, ?_, ?_⟩
              · rw [h1, h2]; linarith
              · rw [hsw] at h4; exact h4
            · exact InRect_trans hinner (ihI r hr)
          · rw [List.pairwise_append]
            refine ⟨layoutRowV_pairwise hwwpos row hrow x y, ihP, ?_⟩
            intro r1 hr1 r2 hr2
            obtain ⟨h1, h2, _, _, _⟩ := layoutRowV_bounds hwwpos row hrow x y r1 hr1
            have h2' := ihI r2 hr2
            left
            rw [h1, h2]
            have : x + row.sum / H ≤ r2.x := h2'.1
            linarith
        · -- horizontal strip, recursion continues below it
          have hhhpos : 0 < row.sum / W := div_pos hs hW
          have hhhlt : row.sum / W < H := by
            rw [div_lt_iff hW]; nlinarith
          have hH' : 0 < H - row.sum / W := by linarith
          have hsw : row.sum / (row.sum / W) = W := by field_simp
          have hunfold : squarifyAux row x y W H true (v :: rest)
              = ⟨row, x, y, W, H, true⟩ ::
                squarifyAux [v] x (y + row.sum / W) W (H - row.sum / W) false rest := by
            simp [squarifyAux, if_neg hrc, if_neg hacc, nextRect]
          have hres := ih [v] x (y + row.sum / W) W (H - row.sum / W) false
            (by intro u hu; simp at hu; subst hu; exact hv) hrest' hW hH'
            (by have harea : W * (H - row.sum / W) = W * H - row.sum := by
                  field_simp <;> ring
                simp only [List.sum_cons, List.sum_nil, harea]; linarith)
          obtain ⟨ihA, ihI, ihP⟩ := hres
          have hlr : layoutRow 0 ⟨row, x, y, W, H, true⟩
              = layoutRowH 0 row x y (row.sum / W) := by
            simp [layoutRow]
          have hinner : InRect ⟨x, y, W, H⟩
              ⟨x, y + row.sum / W, W, H - row.sum / W⟩ := by
            refine ⟨?_, ?_, ?_, ?_⟩ <;> simp <;> linarith
          rw [hunfold]
          simp only [List.flatMap_cons, hlr]
          refine ⟨?_, ?_, ?_⟩
          · rw [List.map_append, layoutRowH_map_area (ne_of_gt hhhpos) row x y, ihA]
            simp
          · intro r hr
            rcases List.mem_append.mp hr with hr | hr
            · obtain ⟨h1, h2, h3, h4, _⟩ := layoutRowH_bounds hhhpos row hrow x y r hr
              refine ⟨h3, le_of_eq h1.symm, ?_, ?_⟩
              · rw [hsw] at h4; exact h4
              · rw [h1, h2]; linarith
            · exact InRect_trans hinner (ihI r hr)
          · rw [List.pairwise_append]
            refine ⟨layoutRowH_pairwise hhhpos row hrow x y, ihP, ?_⟩
            intro r1 hr1 r2 hr2
            obtain ⟨h1, h2, _, _, _⟩ := layoutRowH_bounds hhhpos row hrow x y r1 hr1
            have h2' := ihI r2 hr2
            right; right; left
            rw [h1, h2]
            have : y + row.sum / W ≤ r2.y := h2'.2.1
            linarith

lemma sum_map_mul_const (l : List ℚ) (c : ℚ) :
    (l.map (fun v => v * c)).sum = l.sum * c := by
  induction l with
  | nil => simp
  | cons a t ih => simp [ih]; ring

lemma normalizeVals_sum (values : List ℚ) (w h : ℚ) (hS : values.sum ≠ 0) :
    (normalizeVals values w h).sum = w * h := by
  have hfun : (fun v => v / values.sum * (w * h))
      = fun v => v * (w * h / values.sum) := by
    funext v; ring
  rw [normalizeVals, hfun, sum_map_mul_const, mul_comm, div_mul_cancel₀ _ hS]

/-- Claim C1: for positive values and a positive container with padding 0,
`_squarify` returns one rectangle per value in input order, the areas are the
normalized values (so they sum to the container area `w*h`), the rectangles
are pairwise non-overlapping, and all of them lie inside the container. -/
theorem squarify_tiles_container (values : List ℚ) (x y w h : ℚ)
    (hv : ∀ v ∈ values, 0 < v) (hne : values ≠ []) (hw : 0 < w) (hh : 0 < h) :
    (_squarify values x y w h 0).length = values.length ∧
    (_squarify values x y w h 0).map Rect.area
        = values.map (fun v => v / values.sum * (w * h)) ∧
    ((_squarify values x y w h 0).map Rect.area).sum = w * h ∧
    (_squarify values x y w h 0).Pairwise NoOverlap ∧
    ∀ r ∈ _squarify values x y w h 0, InRect ⟨x, y, w, h⟩ r := by
  have hS : 0 < values.sum := List.sum_pos values hv hne
  have hS0 : values.sum ≠ 0 := ne_of_gt hS
  have hwh : 0 < w * h := mul_pos hw hh
  have hpos : ∀ u ∈ normalizeVals values w h, 0 < u := by
    intro u hu
    simp only [normalizeVals, List.mem_map] at hu
    obtain ⟨v, hvm, rfl⟩ := hu
    exact mul_pos (div_pos (hv v hvm) hS) hwh
  have hnsum : (normalizeVals values w h).sum = w * h :=
    normalizeVals_sum values w h hS0
  have hmain := squarifyAux_spec (normalizeVals values w h) [] x y w h true
    (by intro u hu; simp at hu) hpos hw hh (by simp [hnsum])
  obtain ⟨hA, hI, hP⟩ := hmain
  rw [List.nil_append] at hA
  have hsq : _squarify values x y w h 0
      = (squarifyAux [] x y w h true (normalizeVals values w h)).flatMap (layoutRow 0) :=
    rfl
  refine ⟨?_, ?_, ?_, by rw [hsq]; exact hP, by rw [hsq]; exact hI⟩
  · have hlen := congrArg List.length hA
    rw [List.length_map] at hlen
    rw [hsq, hlen]
    simp [normalizeVals]
  · rw [hsq, hA]; rfl
  · rw [hsq, hA, hnsum]

/-- Witness for C1 at the spec scenario: values `[6,6,4,3,2,2,1]` in the
container `(0,0,6,4)` with padding 0 give seven rectangles with areas exactly
`[6,6,4,3,2,2,1]`, summing to 24, pairwise non-overlapping. -/
theorem squarify_tiles_container_witness :
    (_squarify [6, 6, 4, 3, 2, 2, 1] 0 0 6 4 0).length = 7 ∧
    (_squarify [6, 6, 4, 3, 2, 2, 1] 0 0 6 4 0).map Rect.area = [6, 6, 4, 3, 2, 2, 1] ∧
    ((_squarify [6, 6, 4, 3, 2, 2, 1] 0 0 6 4 0).map Rect.area).sum = 24 ∧
    (_squarify [6, 6, 4, 3, 2, 2, 1] 0 0 6 4 0).Pairwise NoOverlap := by
  have h := squarify_tiles_container [6, 6, 4, 3, 2, 2, 1] 0 0 6 4
    (by decide) (by decide) (by decide) (by decide)
  have harea : (_squarify [6, 6, 4, 3, 2, 2, 1] 0 0 6 4 0).map Rect.area
      = [6, 6, 4, 3, 2, 2, 1] := by
    rw [h.2.1]; norm_num
  refine ⟨by simpa using h.1, harea, by rw [harea]; norm_num, h.2.2.2.1⟩

/-! ### Claim C4: the worst-ratio formula -/

/-- The worst-aspect-ratio formula exactly as the spec words it:
`max((S²·max_v)/T², T²/(S²·min_v))`. -/
def specWorstRatio (row : List ℚ) (T : ℚ) : ℚ :=
  max ((row.sum) ^ 2 * maxQ row / T ^ 2) (T ^ 2 / ((row.sum) ^ 2 * minQ row))

/-- Claim C4 counterexample: for the row `[1,2]` with shorter side `T = 2`,
the solver computes `9/4` while the spec formula gives `9/2`; the two do not
agree. -/
theorem worst_ratio_spec_formula_false :
    worstRatio [1, 2] 2 = 9 / 4 ∧ specWorstRatio [1, 2] 2 = 9 / 2 ∧
    worstRatio [1, 2] 2 ≠ specWorstRatio [1, 2] 2 := by
  have h1 : worstRatio [1, 2] 2 = 9 / 4 := by
    norm_num [worstRatio, maxQ, minQ, max_def, min_def]
  have h2 : specWorstRatio [1, 2] 2 = 9 / 2 := by
    norm_num [specWorstRatio, maxQ, minQ, max_def, min_def]
  exact ⟨h1, h2, by rw [h1, h2]; norm_num⟩

lemma foldl_max_le (vs : List ℚ) :
    ∀ a : ℚ, a ≤ vs.foldl max a ∧ ∀ v ∈ vs, v ≤ vs.foldl max a := by
  induction vs with
  | nil => intro a; simp
  | cons b t ih =>
    intro a
    obtain ⟨h1, h2⟩ := ih (max a b)
    refine ⟨le_trans (le_max_left a b) h1, ?_⟩
    intro v hv
    rcases List.mem_cons.mp hv with hv | hv
    · rw [hv]; exact le_trans (le_max_right a b) h1
    · exact h2 v hv

lemma foldl_max_mem (vs : List ℚ) :
    ∀ a : ℚ, vs.foldl max a = a ∨ vs.foldl max a ∈ vs := by
  induction vs with
  | nil => intro a; simp
  | cons b t ih =>
    intro a
    rcases ih (max a b) with h | h
    · rcases max_choice a b with hm | hm
      · left; simp only [List.foldl_cons]; rw [h, hm]
      · right; simp only [List.foldl_cons]; rw [h, hm]; exact List.mem_cons_self b t
    · right; exact List.mem_cons_of_mem b h

lemma foldl_min_le (vs : List ℚ) :
    ∀ a : ℚ, vs.foldl min a ≤ a ∧ ∀ v ∈ vs, vs.foldl min a ≤ v := by
  induction vs with
  | nil => intro a; simp
  | cons b t ih =>
    intro a
    obtain ⟨h1, h2⟩ := ih (min a b)
    refine ⟨le_trans h1 (min_le_left a b), ?_⟩
    intro v hv
    rcases List.mem_cons.mp hv with hv | hv
    · rw [hv]; exact le_trans h1 (min_le_right a b)
    · exact h2 v hv

lemma foldl_min_mem (vs : List ℚ) :
    ∀ a : ℚ, vs.foldl min a = a ∨ vs.foldl min a ∈ vs := by
  induction vs with
  | nil => intro a; simp
  | cons b t ih =>
    intro a
    rcases ih (min a b) with h | h
    · rcases min_choice a b with hm | hm
      · left; simp only [List.foldl_cons]; rw [h, hm]
      · right; simp only [List.foldl_cons]; rw [h, hm]; exact List.mem_cons_self b t
    · right; exact List.mem_cons_of_mem b h

lemma maxQ_is_max (row : List ℚ) (hne : row ≠ []) :
    maxQ row ∈ row ∧ ∀ v ∈ row, v ≤ maxQ row := by
  cases row with
  | nil => exact absurd rfl hne
  | cons v vs =>
    constructor
    · rcases foldl_max_mem vs v with h | h
      · rw [maxQ, h]; exact List.mem_cons_self v vs
      · exact List.mem_cons_of_mem v h
    · intro u hu
      rcases List.mem_cons.mp hu with hu | hu
      · subst hu; exact (foldl_max_le vs u).1
      · exact (foldl_max_le vs v).2 u hu

lemma minQ_is_min (row : List ℚ) (hne : row ≠ []) :
    minQ row ∈ row ∧ ∀ v ∈ row, minQ row ≤ v := by
  cases row with
  | nil => exact absurd rfl hne
  | cons v vs =>
    constructor
    · rcases foldl_min_mem vs v with h | h
      · rw [minQ, h]; exact List.mem_cons_self v vs
      · exact List.mem_cons_of_mem v h
    · intro u hu
      rcases List.mem_cons.mp hu with hu | hu
      · subst hu; exact (foldl_min_le vs u).1
      · exact (foldl_min_le vs v).2 u hu

/-- Claim C4 (amended): for a non-empty candidate row with sum `S` and shorter
remaining side `T`, the metric the solver uses equals
`max((T²·max_v)/S², S²/(T²·min_v))` - i.e. the spec formula with `T` and `S`
swapped - where `max_v`/`min_v` are extreme values of the row. -/
theorem worst_ratio_amended (row : List ℚ) (T : ℚ) (hne : row ≠ []) :
    ∃ M ∈ row, (∀ v ∈ row, v ≤ M) ∧
      ∃ m ∈ row, (∀ v ∈ row, m ≤ v) ∧
        worstRatio row T
          = max (T ^ 2 * M / (row.sum) ^ 2) ((row.sum) ^ 2 / (T ^ 2 * m)) := by
  obtain ⟨hMmem, hMub⟩ := maxQ_is_max row hne
  obtain ⟨hmmem, hmlb⟩ := minQ_is_min row hne
  exact ⟨maxQ row, hMmem, hMub, minQ row, hmmem, hmlb, rfl⟩

/-- Witness for the amended C4 at the row `[1,2]` with `T = 2`. -/
theorem worst_ratio_amended_witness :
    ∃ M ∈ ([1, 2] : List ℚ), (∀ v ∈ ([1, 2] : List ℚ), v ≤ M) ∧
      ∃ m ∈ ([1, 2] : List ℚ), (∀ v ∈ ([1, 2] : List ℚ), m ≤ v) ∧
        worstRatio [1, 2] 2
          = max (2 ^ 2 * M / (List.sum [1, 2]) ^ 2)
              ((List.sum [1, 2]) ^ 2 / (2 ^ 2 * m)) :=
  worst_ratio_amended [1, 2] 2 (by decide)

/-! ### Claim C7: no input validation in the solver -/

set_option maxHeartbeats 1600000 in
/-- Claim C7 counterexample: on a degenerate container with `w = -6 ≤ 0`,
`_squarify` raises nothing and returns geometry - two rectangles with
negative widths (exact arithmetic coincides with the float run here). -/
theorem squarify_no_validation_counterexample :
    _squarify [1, 1] 0 0 (-6) 4 0 = [⟨0, 0, -3, 4⟩, ⟨-3, 0, -3, 4⟩] ∧
    ((-6 : ℚ) ≤ 0) := by
  refine ⟨?_, by norm_num⟩
  norm_num [_squarify, squarifyAux, normalizeVals, worstRatio, maxQ, minQ, nextRect,
    layoutRow, layoutRowH, layoutRowV, max_def, min_def, List.cons_ne_nil]

lemma layoutRowH_length (p : ℚ) :
    ∀ (row : List ℚ) (xx y hh : ℚ), (layoutRowH p row xx y hh).length = row.length
  | [], _, _, _ => rfl
  | r :: rs, xx, y, hh => by
    simp [layoutRowH, layoutRowH_length p rs]

lemma layoutRowV_length (p : ℚ) :
    ∀ (row : List ℚ) (x yy ww : ℚ), (layoutRowV p row x yy ww).length = row.length
  | [], _, _, _ => rfl
  | r :: rs, x, yy, ww => by
    simp [layoutRowV, layoutRowV_length p rs]

lemma layoutRow_length (p : ℚ) (ev : FlushEv) :
    (layoutRow p ev).length = ev.row.length := by
  unfold layoutRow
  by_cases h : ev.horiz = true
  · rw [if_pos h, layoutRowH_length]
  · rw [if_neg h, layoutRowV_length]

lemma squarifyAux_rect_count (p : ℚ) :
    ∀ (rest row : List ℚ) (x y W H : ℚ) (horiz : Bool),
      (((squarifyAux row x y W H horiz rest).flatMap (layoutRow p)).length)
        = row.length + rest.length := by
  intro rest
  induction rest with
  | nil =>
    intro row x y W H horiz
    by_cases hrc : row = []
    · subst hrc; simp [squarifyAux]
    · simp [squarifyAux, if_neg hrc, layoutRow_length]
  | cons v rest ih =>
    intro row x y W H horiz
    by_cases hrc : row = []
    · subst hrc
      have hstep : squarifyAux ([] : List ℚ) x y W H horiz (v :: rest)
          = squarifyAux [v] x y W H horiz rest := by
        simp [squarifyAux]
      rw [hstep, ih [v] x y W H horiz]
      simp
      omega
    · by_cases hacc : worstRatio (row ++ [v]) (min W H) ≤ worstRatio row (min W H)
      · simp only [squarifyAux, if_neg hrc, if_pos hacc]
        rw [ih (row ++ [v]) x y W H horiz]
        simp
        omega
      · cases horiz
        · have hunfold : squarifyAux row x y W H false (v :: rest)
              = ⟨row, x, y, W, H, false⟩ ::
                squarifyAux [v] (x + row.sum / H) y (W - row.sum / H) H true rest := by
            simp [squarifyAux, if_neg hrc, if_neg hacc, nextRect]
          rw [hunfold]
          simp only [List.flatMap_cons, List.length_append, layoutRow_length,
            ih [v] (x + row.sum / H) y (W - row.sum / H) H true]
          simp
          omega
        · have hunfold : squarifyAux row x y W H true (v :: rest)
              = ⟨row, x, y, W, H, true⟩ ::
                squarifyAux [v] x (y + row.sum / W) W (H - row.sum / W) false rest := by
            simp [squarifyAux, if_neg hrc, if_neg hacc, nextRect]
          rw [hunfold]
          simp only [List.flatMap_cons, List.length_append, layoutRow_length,
            ih [v] x (y + row.sum / W) W (H - row.sum / W) false]
          simp
          omega

/-- Claim C7 (amended): `_squarify` performs no validation and has no failure
path at all; for every input (degenerate containers and value lists included)
it returns exactly one - possibly degenerate - rectangle per value. -/
theorem squarify_total_no_validation (values : List ℚ) (x y w h padding : ℚ) :
    (_squarify values x y w h padding).length = values.length := by
  have h1 := squarifyAux_rect_count padding (normalizeVals values w h) [] x y w h true
  have h2 : _squarify values x y w h padding
      = (squarifyAux [] x y w h true (normalizeVals values w h)).flatMap
          (layoutRow padding) := rfl
  rw [h2, h1]
  simp [normalizeVals]

/-! ### Claim C9: strip orientation -/

/-- The closed rows (flush events) of a `_squarify` run, in order. -/
def squarifyFlushes (values : List ℚ) (x y w h : ℚ) : List FlushEv :=
  squarifyAux [] x y w h true (normalizeVals values w h)

/-- The strictly alternating boolean sequence of length `n` starting at `b`. -/
def altBools : Bool → Nat → List Bool
  | _, 0 => []
  | b, n + 1 => b :: altBools (!b) n

lemma squarifyAux_horiz_alt :
    ∀ (rest row : List ℚ) (x y W H : ℚ) (horiz : Bool),
      ∃ n, (squarifyAux row x y W H horiz rest).map FlushEv.horiz
        = altBools horiz n := by
  intro rest
  induction rest with
  | nil =>
    intro row x y W H horiz
    by_cases hrc : row = []
    · exact ⟨0, by subst hrc; simp [squarifyAux, altBools]⟩
    · exact ⟨1, by simp [squarifyAux, if_neg hrc, altBools]⟩
  | cons v rest ih =>
    intro row x y W H horiz
    by_cases hrc : row = []
    · subst hrc
      obtain ⟨n, hn⟩ := ih [v] x y W H horiz
      exact ⟨n, by simpa [squarifyAux] using hn⟩
    · by_cases hacc : worstRatio (row ++ [v]) (min W H) ≤ worstRatio row (min W H)
      · obtain ⟨n, hn⟩ := ih (row ++ [v]) x y W H horiz
        exact ⟨n, by simpa [squarifyAux, if_neg hrc, if_pos hacc] using hn⟩
      · cases horiz
        · obtain ⟨n, hn⟩ := ih [v] (x + row.sum / H) y (W - row.sum / H) H true
          refine ⟨n + 1, ?_⟩
          have hunfold : squarifyAux row x y W H false (v :: rest)
              = ⟨row, x, y, W, H, false⟩ ::
                squarifyAux [v] (x + row.sum / H) y (W - row.sum / H) H true rest := by
            simp [squarifyAux, if_neg hrc, if_neg hacc, nextRect]
          rw [hunfold]
          simp only [List.map_cons, altBools, Bool.not_false]
          rw [hn]
        · obtain ⟨n, hn⟩ := ih [v] x (y + row.sum / W) W (H - row.sum / W) false
          refine ⟨n + 1, ?_⟩
          have hunfold : squarifyAux row x y W H true (v :: rest)
              = ⟨row, x, y, W, H, true⟩ ::
                squarifyAux [v] x (y + row.sum / W) W (H - row.sum / W) false rest := by
            simp [squarifyAux, if_neg hrc, if_neg hacc, nextRect]
          rw [hunfold]
          simp only [List.map_cons, altBools, Bool.not_true]
          rw [hn]

set_option maxHeartbeats 1600000 in
/-- Claim C9 counterexample: for values `[1,1]` in the container `(0,0,1,100)`,
both closed rows see a remaining rectangle whose width is the strictly shorter
side, yet the first is laid out horizontally and the second vertically - the
orientation is not a function of which side is shorter. -/
theorem squarify_orientation_counterexample :
    squarifyFlushes [1, 1] 0 0 1 100
      = [⟨[50], 0, 0, 1, 100, true⟩, ⟨[50], 0, 50, 1, 50, false⟩] ∧
    (1 : ℚ) < 100 ∧ (1 : ℚ) < 50 := by
  refine ⟨?_, by norm_num, by norm_num⟩
  norm_num [squarifyFlushes, squarifyAux, normalizeVals, worstRatio, maxQ, minQ,
    nextRect, max_def, min_def, List.cons_ne_nil]

/-- Claim C9 (amended): the orientation of the closed rows strictly
alternates, starting horizontal, independent of the remaining rectangle's
side lengths. -/
theorem squarify_orientation_alternates (values : List ℚ) (x y w h : ℚ) :
    ∃ n, (squarifyFlushes values x y w h).map FlushEv.horiz = altBools true n :=
  squarifyAux_horiz_alt (normalizeVals values w h) [] x y w h true

/-! ### Radial (sunburst) partition, from `charts/sunburst/builder.py`,
`_layout` -/

/-- A hierarchy node: label, value and ordered children. -/
inductive HierNode : Type where
  | mk : String → ℚ → List HierNode → HierNode

/-- The label of a node. -/
def HierNode.label : HierNode → String
  | .mk lbl _ _ => lbl

/-- The value of a node. -/
def HierNode.value : HierNode → ℚ
  | .mk _ v _ => v

/-- The children of a node. -/
def HierNode.children : HierNode → List HierNode
  | .mk _ _ cs => cs

/-- One emitted wedge: `(inner, outer, theta1, theta2, label, depth, value)`,
as appended to `slices`. -/
structure SunSlice where
  inner : ℚ
  outer : ℚ
  theta1 : ℚ
  theta2 : ℚ
  label : String
  depth : Nat
  value : ℚ
deriving DecidableEq, Repr

/-- The depth cut-off test `max_depth is not None and depth > max_depth`. -/
def depthExceeded : Option Nat → Nat → Bool
  | none, _ => false
  | some md, depth => md < depth

mutual

/-- `_layout` from `charts/sunburst/builder.py` (lines 12-25).  The Python
reads `node["inner"]`, which the caller assigned just before the call
(`root["inner"]` in `build`, `ch["inner"] = outer` in the loop); here that
value is the `inner` argument.  The slice is emitted with a half-gap trimmed
from both ends of the node's span, then the children are laid out over the
node's pre-gap span in proportion to value/total, with zero fractions when
the total is not positive. -/
def _layout (node : HierNode) (inner start span : ℚ) (depth : Nat)
    (ringThick gapRad : ℚ) (maxDepth : Option Nat) : List SunSlice :=
  match node with
  | .mk lbl v cs =>
    if depthExceeded maxDepth depth then []
    else
      ⟨inner, inner + ringThick, start + gapRad / 2, start + span - gapRad / 2,
        lbl, depth, v⟩ ::
      layoutKids cs ((cs.map HierNode.value).sum) (inner + ringThick) start span
        depth ringThick gapRad maxDepth

/-- The loop over `node["children"]` in `_layout`: each child's fraction is
`value/total` when `total > 0` and `0` otherwise; the running angle `a`
advances by `span * frac`. -/
def layoutKids (cs : List HierNode) (total outer a span : ℚ) (depth : Nat)
    (ringThick gapRad : ℚ) (maxDepth : Option Nat) : List SunSlice :=
  match cs with
  | [] => []
  | c :: rest =>
    (_layout c outer a (span * (if 0 < total then c.value / total else 0))
        (depth + 1) ringThick gapRad maxDepth) ++
    layoutKids rest total outer
      (a + span * (if 0 < total then c.value / total else 0)) span depth
      ringThick gapRad maxDepth

end

/-! ### Claim C5: children of a zero-total node -/

lemma layoutKids_zero_total (cs : List HierNode) (outer : ℚ) (span : ℚ)
    (depth : Nat) (rt gap : ℚ) (md : Option Nat) :
    ∀ a : ℚ, layoutKids cs 0 outer a span depth rt gap md
      = cs.flatMap (fun c => _layout c outer a 0 (depth + 1) rt gap md) := by
  induction cs with
  | nil => intro a; simp [layoutKids]
  | cons c rest ih =>
    intro a
    have h1 : (if (0 : ℚ) < 0 then HierNode.value c / 0 else 0) = 0 := by norm_num
    simp only [layoutKids, List.flatMap_cons, h1, mul_zero, add_zero]
    rw [ih a]

/-- Claim C5 counterexample: a node of value 10 with two zero-valued children,
laid out with span 1 and gap 0, gives both children a zero angular span
(wedges `(1,2,0,0,·)`), not the even split `1/2` each that the claim states. -/
theorem sunburst_even_split_false :
    _layout (.mk "r" 10 [.mk "a" 0 [], .mk "b" 0 []]) 0 0 1 0 1 0 none
      = [⟨0, 1, 0, 1, "r", 0, 10⟩, ⟨1, 2, 0, 0, "a", 1, 0⟩,
         ⟨1, 2, 0, 0, "b", 1, 0⟩] ∧
    ((0 : ℚ) - 0 ≠ 1 / 2) := by
  refine ⟨?_, by norm_num⟩
  norm_num [_layout, layoutKids, depthExceeded, HierNode.value]

/-- Claim C5 (amended): when a node's children's values sum to zero, every
child is laid out with angular span 0 at the parent's start angle - the
pre-gap span is not split evenly but vanishes entirely. -/
theorem sunburst_zero_total_children_spans (lbl : String) (v : ℚ)
    (cs : List HierNode) (inner start span : ℚ) (depth : Nat) (rt gap : ℚ)
    (md : Option Nat) (hne : cs ≠ []) (h0 : (cs.map HierNode.value).sum = 0) :
    _layout (.mk lbl v cs) inner start span depth rt gap md
      = if depthExceeded md depth then []
        else ⟨inner, inner + rt, start + gap / 2, start + span - gap / 2,
            lbl, depth, v⟩ ::
          cs.flatMap (fun c => _layout c (inner + rt) start 0 (depth + 1) rt gap md) := by
  rw [_layout, h0, layoutKids_zero_total]

/-- Witness for the amended C5 at a concrete two-child zero-total node. -/
theorem sunburst_zero_total_children_spans_witness :
    _layout (.mk "r" 10 [.mk "a" 0 [], .mk "b" 0 []]) 0 0 1 0 1 0 none
      = if depthExceeded none 0 then []
        else ⟨0, 0 + 1, 0 + 0 / 2, 0 + 1 - 0 / 2, "r", 0, 10⟩ ::
          [HierNode.mk "a" 0 [], HierNode.mk "b" 0 []].flatMap
            (fun c => _layout c (0 + 1) 0 0 (0 + 1) 1 0 none) :=
  sunburst_zero_total_children_spans "r" 10 [.mk "a" 0 [], .mk "b" 0 []]
    0 0 1 0 1 0 none (by simp) (by norm_num [HierNode.value])

/-! ### Claim C8: the layout mutates its input nodes -/

/-- A hierarchy node as the Python dict actually is: the `"inner"` key is
absent (`none`) until the layout writes it. -/
inductive MNode : Type where
  | mk : String → ℚ → Option ℚ → List MNode → MNode

/-- The value field of a mutable node. -/
def MNode.value : MNode → ℚ
  | .mk _ v _ _ => v

/-- The `"inner"` key of a mutable node (`none` when absent). -/
def MNode.inner : MNode → Option ℚ
  | .mk _ _ o _ => o

mutual

/-- The state of the node dict after `node["inner"] = innerVal` (the
assignment the caller performs immediately before every `_layout` call:
`root["inner"] = inner_frac` in `build`, `ch["inner"] = outer` in the child
loop) followed by `_layout(node, ...)` itself.  Mirrors `_layout`'s control
flow: a depth-pruned call leaves the children untouched (their `inner` was
never assigned), otherwise each child is processed in order with the same
fractions as the slice layout. -/
def layoutUpd (node : MNode) (innerVal start span : ℚ) (depth : Nat)
    (rt gap : ℚ) (md : Option Nat) : MNode :=
  match node with
  | .mk lbl v _ cs =>
    if depthExceeded md depth then .mk lbl v (some innerVal) cs
    else .mk lbl v (some innerVal)
      (layoutUpdKids cs ((cs.map MNode.value).sum) (innerVal + rt) start span
        depth rt gap md)

/-- The children updates of `layoutUpd`, mirroring `layoutKids`. -/
def layoutUpdKids (cs : List MNode) (total outer a span : ℚ) (depth : Nat)
    (rt gap : ℚ) (md : Option Nat) : List MNode :=
  match cs with
  | [] => []
  | c :: rest =>
    layoutUpd c outer a (span * (if 0 < total then c.value / total else 0))
        (depth + 1) rt gap md ::
    layoutUpdKids rest total outer
      (a + span * (if 0 < total then c.value / total else 0)) span depth
      rt gap md

end

mutual

/-- Remove the `"inner"` key everywhere in a tree. -/
def eraseInner : MNode → MNode
  | .mk lbl v _ cs => .mk lbl v none (eraseInnerKids cs)

/-- Remove the `"inner"` key everywhere in a list of trees. -/
def eraseInnerKids : List MNode → List MNode
  | [] => []
  | c :: rest => eraseInner c :: eraseInnerKids rest

end

mutual

lemma eraseInner_layoutUpd :
    ∀ (node : MNode) (iv start span : ℚ) (depth : Nat) (rt gap : ℚ)
      (md : Option Nat),
      eraseInner (layoutUpd node iv start span depth rt gap md) = eraseInner node
  | .mk lbl v o cs, iv, start, span, depth, rt, gap, md => by
    by_cases hd : depthExceeded md depth
    · simp [layoutUpd, hd, eraseInner]
    · simp only [layoutUpd, if_neg hd, eraseInner]
      rw [eraseInner_layoutUpdKids cs]

lemma eraseInner_layoutUpdKids :
    ∀ (cs : List MNode) (total outer a span : ℚ) (depth : Nat) (rt gap : ℚ)
      (md : Option Nat),
      eraseInnerKids (layoutUpdKids cs total outer a span depth rt gap md)
        = eraseInnerKids cs
  | [], _, _, _, _, _, _, _, _ => by simp [layoutUpdKids]
  | c :: rest, total, outer, a, span, depth, rt, gap, md => by
    simp only [layoutUpdKids, eraseInnerKids]
    rw [eraseInner_layoutUpd c, eraseInner_layoutUpdKids rest]

end

/-- Claim C8 counterexample: calling the layout on a fresh root dict (no
`"inner"` key anywhere) leaves the tree changed - the root now carries
`inner = 19/50` (the default `inner_hole_frac` 0.38) and its child carries
`inner = 19/50 + 9/50` (outer of the root ring, thickness 0.18) - so the
input does not hold exactly the fields it held before the call. -/
theorem sunburst_mutates_input_counterexample :
    layoutUpd (.mk "r" 1 none [.mk "a" 1 none []]) (19/50) 0 1 0 (9/50) 0 none
      ≠ .mk "r" 1 none [.mk "a" 1 none []] ∧
    MNode.inner
      (layoutUpd (.mk "r" 1 none [.mk "a" 1 none []]) (19/50) 0 1 0 (9/50) 0 none)
      = some (19/50) := by
  constructor
  · intro h
    have h2 := congrArg MNode.inner h
    simp [layoutUpd, MNode.inner, depthExceeded] at h2
  · simp [layoutUpd, MNode.inner, depthExceeded]

/-- Claim C8 (amended): the radial layout does mutate its input - it writes
the `"inner"` key into the root and every visited descendant - but nothing
else: erasing the `"inner"` keys from the post-call tree gives back the
original tree with its `"inner"` keys erased, and the node itself always ends
up with `inner = some innerVal`. -/
theorem sunburst_mutation_frame (node : MNode) (iv start span : ℚ)
    (depth : Nat) (rt gap : ℚ) (md : Option Nat) :
    eraseInner (layoutUpd node iv start span depth rt gap md) = eraseInner node ∧
    MNode.inner (layoutUpd node iv start span depth rt gap md) = some iv := by
  refine ⟨eraseInner_layoutUpd node iv start span depth rt gap md, ?_⟩
  match node with
  | .mk lbl v o cs =>
    by_cases hd : depthExceeded md depth
    · simp [layoutUpd, hd, MNode.inner]
    · simp [layoutUpd, hd, MNode.inner]

/-! ### Graph auto-layout lane assignment, from `scripts/flow/builder.py`,
`_auto_lanes` -/

/-- A directed edge `{from, to}` of the flow graph (`from` is a Lean keyword,
so the fields are `src`/`tgt`). -/
structure GEdge where
  src : Nat
  tgt : Nat
deriving DecidableEq, Repr

/-- The predecessor lists built by `_auto_lanes` (lines 11-13):
`preds[e["to"]].append(e["from"])` in edge order. -/
def predsOf (edges : List GEdge) (v : Nat) : List Nat :=
  (edges.filter (fun e => e.tgt = v)).map (fun e => e.src)

/-- The body of the `for n in nodes` loop of one pass (lines 17-22): skip
overridden nodes, and for a node with predecessors raise its lane to
`1 + max(predecessor lanes)` when that is larger, setting the changed flag. -/
def lanePassStep (ov : List (Nat × Int)) (preds : Nat → List Nat)
    (st : (Nat → Int) × Bool) (nid : Nat) : (Nat → Int) × Bool :=
  if (ov.lookup nid).isSome then st
  else
    match preds nid with
    | [] => st
    | p :: ps =>
      if st.1 nid ≤ ps.foldl (fun acc q => max acc (st.1 q)) (st.1 p) then
        (Function.update st.1 nid (ps.foldl (fun acc q => max acc (st.1 q)) (st.1 p) + 1),
          true)
      else st

/-- One full pass over the nodes (lines 16-22), threading the lane map and
the `changed` flag. -/
def lanePass (nodes : List Nat) (preds : Nat → List Nat) (ov : List (Nat × Int))
    (lane : Nat → Int) (changed : Bool) : (Nat → Int) × Bool :=
  nodes.foldl (lanePassStep ov preds) (lane, changed)

/-- The capped iteration (lines 15-23): up to `fuel` passes, stopping early
when a pass changes nothing. -/
def lanesLoop (nodes : List Nat) (preds : Nat → List Nat)
    (ov : List (Nat × Int)) : Nat → (Nat → Int) → (Nat → Int)
  | 0, lane => lane
  | fuel + 1, lane =>
    match lanePass nodes preds ov lane false with
    | (lane2, changed) =>
      if changed then lanesLoop nodes preds ov fuel lane2 else lane2

/-- `_auto_lanes(nodes, edges, lane_override)` (lines 8-24): nodes are given
by their ids in list order; the initial lane map is the override where
present and 0 otherwise; the pass loop is capped at 12 iterations.  Lane
lookups only happen at node ids listed in `nodes` (the validator guarantees
edge endpoints exist; on other ids the Python dict would raise KeyError while
this total embedding returns a default). -/
def _auto_lanes (nodes : List Nat) (edges : List GEdge)
    (ov : List (Nat × Int)) : Nat → Int :=
  lanesLoop nodes (predsOf edges) ov 12 (fun i => (ov.lookup i).getD 0)

/-- One directed step along an edge of the graph. -/
def StepEdge (edges : List GEdge) (u v : Nat) : Prop :=
  ∃ e ∈ edges, GEdge.src e = u ∧ GEdge.tgt e = v

/-- Directed reachability along edges. -/
def Reaches (edges : List GEdge) : Nat → Nat → Prop :=
  Relation.ReflTransGen (StepEdge edges)

/-- An edge lies on a cycle exactly when its target reaches its source back. -/
def EdgeOnCycle (edges : List GEdge) (e : GEdge) : Prop :=
  Reaches edges e.tgt e.src

/-- A 14-node chain `0 → 1 → ... → 13`. -/
def chainEdges : List GEdge :=
  [⟨0, 1⟩, ⟨1, 2⟩, ⟨2, 3⟩, ⟨3, 4⟩, ⟨4, 5⟩, ⟨5, 6⟩, ⟨6, 7⟩,
   ⟨7, 8⟩, ⟨8, 9⟩, ⟨9, 10⟩, ⟨10, 11⟩, ⟨11, 12⟩, ⟨12, 13⟩]

/-- The chain's nodes listed in reverse order, so each pass only advances the
layering by one level. -/
def chainNodes : List Nat := [13, 12, 11, 10, 9, 8, 7, 6, 5, 4, 3, 2, 1, 0]

lemma chainStep_lt {u v : Nat} (h : StepEdge chainEdges u v) : u < v := by
  obtain ⟨e, he, h1, h2⟩ := h
  subst h1; subst h2
  fin_cases he <;> norm_num

lemma chainReaches_le {u v : Nat} (h : Reaches chainEdges u v) : u ≤ v := by
  induction h with
  | refl => exact le_refl _
  | tail _ hstep ih => exact le_trans ih (le_of_lt (chainStep_lt hstep))

lemma lanePassStep_keeps_true (ov : List (Nat × Int)) (preds : Nat → List Nat)
    (st : (Nat → Int) × Bool) (n : Nat) (h : st.2 = true) :
    (lanePassStep ov preds st n).2 = true := by
  unfold lanePassStep
  split
  · exact h
  · split
    · exact h
    · split
      · rfl
      · exact h

lemma foldl_lanePassStep_keeps_true (ov : List (Nat × Int))
    (preds : Nat → List Nat) :
    ∀ (nodes : List Nat) (st : (Nat → Int) × Bool), st.2 = true →
      (nodes.foldl (lanePassStep ov preds) st).2 = true := by
  intro nodes
  induction nodes with
  | nil => intro st h; exact h
  | cons n ns ih =>
    intro st h
    rw [List.foldl_cons]
    exact ih _ (lanePassStep_keeps_true ov preds st n h)

lemma foldl_max_lane_le (lane : Nat → Int) (ps : List Nat) :
    ∀ a : Int, a ≤ ps.foldl (fun acc q => max acc (lane q)) a ∧
      ∀ q ∈ ps, lane q ≤ ps.foldl (fun acc q => max acc (lane q)) a := by
  induction ps with
  | nil => intro a; simp
  | cons p pt ih =>
    intro a
    obtain ⟨h1, h2⟩ := ih (max a (lane p))
    refine ⟨le_trans (le_max_left a (lane p)) h1, ?_⟩
    intro q hq
    rcases List.mem_cons.mp hq with hq | hq
    · rw [hq]; exact le_trans (le_max_right a (lane p)) h1
    · exact h2 q hq

lemma lanePassStep_false (ov : List (Nat × Int)) (preds : Nat → List Nat)
    (lane : Nat → Int) (n : Nat)
    (h : (lanePassStep ov preds (lane, false) n).2 = false) :
    lanePassStep ov preds (lane, false) n = (lane, false) ∧
    ((ov.lookup n).isNone → ∀ p ∈ preds n, lane p < lane n) := by
  by_cases ho : (ov.lookup n).isSome
  · refine ⟨by simp [lanePassStep, ho], ?_⟩
    intro hn
    rw [Option.isNone_iff_eq_none] at hn
    rw [hn] at ho
    simp at ho
  · cases hp : preds n with
    | nil =>
      refine ⟨by simp [lanePassStep, ho, hp], ?_⟩
      intro _ p hpmem
      simp at hpmem
    | cons p ps =>
      by_cases hle : lane n ≤ ps.foldl (fun acc q => max acc (lane q)) (lane p)
      · exfalso
        have htrue : (lanePassStep ov preds (lane, false) n).2 = true := by
          simp [lanePassStep, ho, hp, hle]
        rw [htrue] at h
        simp at h
      · refine ⟨by simp [lanePassStep, ho, hp, hle], ?_⟩
        intro _ q hq
        push_neg at hle
        have hub := foldl_max_lane_le lane ps (lane p)
        rcases List.mem_cons.mp hq with hq | hq
        · rw [hq]; exact lt_of_le_of_lt hub.1 hle
        · exact lt_of_le_of_lt (hub.2 q hq) hle

lemma lanePass_fixed (ov : List (Nat × Int)) (preds : Nat → List Nat) :
    ∀ (nodes : List Nat) (lane : Nat → Int),
      (nodes.foldl (lanePassStep ov preds) (lane, false)).2 = false →
      ∀ n ∈ nodes, (ov.lookup n).isNone → ∀ p ∈ preds n, lane p < lane n := by
  intro nodes
  induction nodes with
  | nil => intro lane _ n hn; simp at hn
  | cons n ns ih =>
    intro lane h
    rw [List.foldl_cons] at h
    have hst : (lanePassStep ov preds (lane, false) n).2 = false := by
      by_contra hb
      have hb2 : (lanePassStep ov preds (lane, false) n).2 = true := by
        revert hb; cases (lanePassStep ov preds (lane, false) n).2 <;> simp
      have := foldl_lanePassStep_keeps_true ov preds ns _ hb2
      rw [this] at h
      simp at h
    obtain ⟨heq, hprop⟩ := lanePassStep_false ov preds lane n hst
    rw [heq] at h
    intro n2 hn2
    rcases List.mem_cons.mp hn2 with hn2 | hn2
    · rw [hn2]; exact hprop
    · exact ih lane h n2 hn2

/-- Claim C3 counterexample: on the acyclic 14-node chain `0 → 1 → ... → 13`
with the nodes listed in reverse order and no overrides, the 12-pass cap is
exhausted before the layering converges and the final edge `12 → 13` - not on
any cycle, target not overridden - gets `lane 13 = lane 12 = 12` instead of a
strict increase. -/
theorem auto_lanes_strict_increase_false :
    (⟨12, 13⟩ : GEdge) ∈ chainEdges ∧
    (([] : List (Nat × Int)).lookup 13).isNone ∧
    ¬ EdgeOnCycle chainEdges ⟨12, 13⟩ ∧
    ¬ (_auto_lanes chainNodes chainEdges [] 12
        < _auto_lanes chainNodes chainEdges [] 13) := by
  refine ⟨by decide, by decide, ?_, by decide⟩
  intro hcyc
  have := chainReaches_le hcyc
  simp at this

/-- Claim C3 (amended): whenever the layering iteration has actually reached
a fixed point (running one more pass over the returned lanes reports no
change - in particular whenever the loop stopped before the 12-pass cap),
every edge whose target is not overridden and is listed among the nodes gets
a strictly larger target lane; no acyclicity assumption is needed. -/
theorem auto_lanes_converged_strict (nodes : List Nat) (edges : List GEdge)
    (ov : List (Nat × Int)) (e : GEdge) (he : e ∈ edges) (hn : e.tgt ∈ nodes)
    (hov : (ov.lookup e.tgt).isNone)
    (hfix : (lanePass nodes (predsOf edges) ov (_auto_lanes nodes edges ov)
        false).2 = false) :
    _auto_lanes nodes edges ov e.src < _auto_lanes nodes edges ov e.tgt := by
  have h := lanePass_fixed ov (predsOf edges) nodes (_auto_lanes nodes edges ov)
    hfix e.tgt hn hov
  apply h
  simp only [predsOf, List.mem_map, List.mem_filter]
  exact ⟨e, ⟨he, by simp⟩, rfl⟩

/-- Witness for the amended C3 on the converged two-node graph `0 → 1`. -/
theorem auto_lanes_converged_strict_witness :
    _auto_lanes [0, 1] [⟨0, 1⟩] [] (GEdge.src ⟨0, 1⟩)
      < _auto_lanes [0, 1] [⟨0, 1⟩] [] (GEdge.tgt ⟨0, 1⟩) :=
  auto_lanes_converged_strict [0, 1] [⟨0, 1⟩] [] ⟨0, 1⟩
    (by decide) (by decide) (by decide) (by decide)

/-! ### Sankey flow layout, from `scripts/sankey/builder.py`, `build` -/

/-- A Sankey node `{id, col}`. -/
structure SNode where
  id : Nat
  col : Int
deriving DecidableEq, Repr

/-- A Sankey link `{source, target, value}`. -/
structure SLink where
  source : Nat
  target : Nat
  value : ℚ
deriving DecidableEq, Repr

/-- `out_sums` (lines 59-62): total outflow per node id, accumulated over the
links in order (equal to the filtered sum; the Python dict is keyed by node
ids and the validator guarantees link endpoints exist). -/
def out_sums (links : List SLink) (i : Nat) : ℚ :=
  ((links.filter (fun e => e.source = i)).map SLink.value).sum

/-- `in_sums` (lines 59-63): total inflow per node id. -/
def in_sums (links : List SLink) (i : Nat) : ℚ :=
  ((links.filter (fun e => e.target = i)).map SLink.value).sum

/-- `node_size_units` (line 65): `max(in, out, 0.0)`. -/
def node_size_units (links : List SLink) (i : Nat) : ℚ :=
  max (max (in_sums links i) (out_sums links i)) 0

/-- The distinct columns of the node list, in first-occurrence order (the
keys of `by_col`). -/
def colsOf (nodes : List SNode) : List Int :=
  (nodes.map SNode.col).dedup

/-- `max_in_col[c]` (line 66): the summed node sizes of column `c`. -/
def max_in_col (nodes : List SNode) (links : List SLink) (c : Int) : ℚ :=
  ((nodes.filter (fun n => n.col = c)).map
    (fun n => node_size_units links n.id)).sum

/-- `global_max` (line 67): the largest column total, `1.0` when there are no
columns. -/
def global_max (nodes : List SNode) (links : List SLink) : ℚ :=
  match (colsOf nodes).map (max_in_col nodes links) with
  | [] => 1
  | v :: vs => vs.foldl max v

/-- `usable_h_px = height * 0.85` (line 69). -/
def usable_h_px (height : ℚ) : ℚ := height * (85 / 100)

/-- `unit_to_px = usable_h_px / global_max` (line 70): the single
value-to-pixel scale of the layout. -/
def unit_to_px (nodes : List SNode) (links : List SLink) (height : ℚ) : ℚ :=
  usable_h_px height / global_max nodes links

/-- The ribbon thickness of a link, `h_px = value * unit_to_px` (line 116);
the ribbon is drawn with this thickness at both ends (line 120). -/
def ribbonThickness (nodes : List SNode) (links : List SLink) (height : ℚ)
    (e : SLink) : ℚ :=
  e.value * unit_to_px nodes links height

lemma sum_map_value_mul (l : List SLink) (c : ℚ) :
    (l.map (fun e => SLink.value e * c)).sum = (l.map SLink.value).sum * c := by
  rw [← sum_map_mul_const (l.map SLink.value) c, List.map_map]
  rfl

/-- Claim C2: for every node, the ribbon thicknesses of its outgoing links
sum to its total outflow under the layout's value-to-pixel scale, and those
of its incoming links sum to its total inflow under the same scale (exact
in the rational model; the float run agrees within rounding tolerance). -/
theorem sankey_flow_conservation (nodes : List SNode) (links : List SLink)
    (height : ℚ) (n : SNode) (hn : n ∈ nodes) :
    ((links.filter (fun e => e.source = n.id)).map
        (fun e => ribbonThickness nodes links height e)).sum
      = out_sums links n.id * unit_to_px nodes links height ∧
    ((links.filter (fun e => e.target = n.id)).map
        (fun e => ribbonThickness nodes links height e)).sum
      = in_sums links n.id * unit_to_px nodes links height := by
  constructor
  · simp only [ribbonThickness]
    rw [sum_map_value_mul]
    rfl
  · simp only [ribbonThickness]
    rw [sum_map_value_mul]
    rfl

/-- Witness for C2 on the two-column graph `0(col 0) → 1(col 1)` with links
of value 3 and 7 and the default height 640. -/
theorem sankey_flow_conservation_witness :
    ((([⟨0, 1, 3⟩, ⟨0, 1, 7⟩] : List SLink).filter
        (fun e => e.source = SNode.id ⟨0, 0⟩)).map
        (fun e => ribbonThickness [⟨0, 0⟩, ⟨1, 1⟩] [⟨0, 1, 3⟩, ⟨0, 1, 7⟩] 640 e)).sum
      = out_sums [⟨0, 1, 3⟩, ⟨0, 1, 7⟩] (SNode.id ⟨0, 0⟩)
          * unit_to_px [⟨0, 0⟩, ⟨1, 1⟩] [⟨0, 1, 3⟩, ⟨0, 1, 7⟩] 640 :=
  (sankey_flow_conservation [⟨0, 0⟩, ⟨1, 1⟩] [⟨0, 1, 3⟩, ⟨0, 1, 7⟩] 640 ⟨0, 0⟩
    (by decide)).1

/-! ### Funnel widths, from `charts/funnel/builder.py`, `build` (lines 26-28) -/

/-- The width computation of the funnel builder:
`base = vals[0] if normalize else np.max(vals)` and
`widths = np.clip(vals / base, 0.02, 1.0)`, with `np.clip(a, lo, hi)
= min(max(a, lo), hi)`.  Exact-rational model (see `funnelWidthsF` for the
IEEE special values). -/
def funnelWidths (vals : List ℚ) (normalize : Bool) : List ℚ :=
  vals.map (fun v =>
    min (max (v / (if normalize then vals.headI else maxQ vals)) (2 / 100)) 1)

/-- The clamp exactly as the spec words it: `clamp(value/base, minWidth, 1.0)`
read as raising to the lower bound then capping at the upper. -/
def specClamp (x lo hi : ℚ) : ℚ := max lo (min x hi)

/-- The normalization base as the spec words it: the first stage's value when
normalization is configured, the maximum stage value otherwise. -/
def specFunnelBase (vals : List ℚ) (normalize : Bool) : ℚ :=
  if normalize then vals.headI else maxQ vals

lemma clamp_comm (x : ℚ) : min (max x (2 / 100)) 1 = max (2 / 100) (min x 1) := by
  rcases le_total x (2 / 100) with h | h
  · rw [max_eq_right h, min_eq_left (by norm_num : (2 : ℚ) / 100 ≤ 1),
      max_eq_left (le_trans (min_le_left x 1) h)]
  · rw [max_eq_left h]
    rcases le_total x 1 with h2 | h2
    · rw [min_eq_left h2, max_eq_right h]
    · rw [min_eq_right h2, max_eq_right (by norm_num : (2 : ℚ) / 100 ≤ 1)]

/-- Claim C6: every returned funnel stage width equals
`clamp(value/base, 0.02, 1.0)` with the base chosen per configuration, and on
the scenario `[100, 80, 50, 20]` with base 100 the widths are
`[1, 4/5, 1/2, 1/5]`. -/
theorem funnel_widths_formula :
    (∀ (vals : List ℚ) (normalize : Bool) (i : Nat),
      (funnelWidths vals normalize).get? i
        = (vals.get? i).map
            (fun v => specClamp (v / specFunnelBase vals normalize) (2 / 100) 1)) ∧
    funnelWidths [100, 80, 50, 20] true = [1, 4 / 5, 1 / 2, 1 / 5] := by
  constructor
  · intro vals normalize i
    rw [funnelWidths, List.get?_map]
    cases vals.get? i with
    | none => rfl
    | some v => simp [specClamp, specFunnelBase, clamp_comm]
  · norm_num [funnelWidths, maxQ, List.headI, min_def, max_def]

/-! ### Claim C10: the numpy width range, with IEEE special values -/

/-- A numpy float64 value: finite (exact rational), NaN, or an infinity. -/
inductive NpVal : Type where
  | fin : ℚ → NpVal
  | nan : NpVal
  | pinf : NpVal
  | ninf : NpVal
deriving DecidableEq, Repr

/-- Division of two finite floats, with the IEEE zero-divisor results numpy
produces (warning only, no exception): `0/0 = nan`, `±x/0 = ±inf`. -/
def npDivF (a b : ℚ) : NpVal :=
  if b = 0 then (if a = 0 then .nan else if 0 < a then .pinf else .ninf)
  else .fin (a / b)

/-- `np.maximum` with a finite bound: NaN propagates, `-inf` is raised to the
bound. -/
def npMaxC (x : NpVal) (c : ℚ) : NpVal :=
  match x with
  | .nan => .nan
  | .pinf => .pinf
  | .ninf => .fin c
  | .fin a => .fin (max a c)

/-- `np.minimum` with a finite bound: NaN propagates, `+inf` is capped at the
bound. -/
def npMinC (x : NpVal) (c : ℚ) : NpVal :=
  match x with
  | .nan => .nan
  | .pinf => .fin c
  | .ninf => .ninf
  | .fin a => .fin (min a c)

/-- `np.clip(x, lo, hi) = np.minimum(np.maximum(x, lo), hi)`. -/
def npClip (x : NpVal) (lo hi : ℚ) : NpVal := npMinC (npMaxC x lo) hi

/-- The funnel width computation (lines 26-28) in the numpy model: division
by a zero base produces non-finite widths instead of raising. -/
def funnelWidthsF (vals : List ℚ) (normalize : Bool) : List NpVal :=
  vals.map (fun v =>
    npClip (npDivF v (if normalize then vals.headI else maxQ vals)) (2 / 100) 1)

/-- A width is a finite value within `[0.02, 1]`. -/
def WidthInRange (w : NpVal) : Prop :=
  ∃ q : ℚ, w = .fin q ∧ 2 / 100 ≤ q ∧ q ≤ 1

/-- Claim C10 counterexample: the validator accepts stage values `[0, 5]`,
and with the default normalization the base is the first stage's value 0, so
the first width is NaN - not a value in `[0.02, 1]` - and no clamping
applies to it. -/
theorem funnel_width_range_false :
    funnelWidthsF [0, 5] true = [.nan, .fin 1] ∧ ¬ WidthInRange NpVal.nan := by
  constructor
  · norm_num [funnelWidthsF, npClip, npDivF, npMaxC, npMinC, List.headI]
  · rintro ⟨q, hq, _, _⟩
    exact NpVal.noConfusion hq

/-- Claim C10 (amended): whenever the normalization base is nonzero, every
returned width is finite and lies in `[0.02, 1]` - the lower bound 0.02 being
the hard-coded clip bound - and a zero-valued stage receives exactly width
`0.02`; with a zero base the widths are non-finite instead (see the
counterexample). -/
theorem funnel_width_range_amended (vals : List ℚ) (normalize : Bool)
    (hb : (if normalize then vals.headI else maxQ vals) ≠ 0) :
    (∀ w ∈ funnelWidthsF vals normalize, WidthInRange w) ∧
    (∀ (i : Nat) (v : ℚ), vals.get? i = some v → v = 0 →
      (funnelWidthsF vals normalize).get? i = some (.fin (2 / 100))) := by
  constructor
  · intro w hw
    simp only [funnelWidthsF, List.mem_map] at hw
    obtain ⟨v, hv, rfl⟩ := hw
    refine ⟨min (max (v / (if normalize then vals.headI else maxQ vals)) (2 / 100)) 1,
      ?_, ?_, ?_⟩
    · simp [npClip, npDivF, hb, npMaxC, npMinC]
    · exact le_min (le_max_right _ _) (by norm_num)
    · exact min_le_right _ _
  · intro i v hv hv0
    rw [funnelWidthsF, List.get?_map, hv]
    subst hv0
    simp [npClip, npDivF, hb, npMaxC, npMinC]
    norm_num [max_def, min_def]

/-- Witness for the amended C10 with stages `[0, 5]` and `normalize = false`
(base is the maximum, 5): the zero stage gets exactly 0.02 and the full stage
gets 1, within `[0.02, 1]`. -/
theorem funnel_width_range_amended_witness :
    WidthInRange (NpVal.fin 1) ∧
    (funnelWidthsF [0, 5] false).get? 0 = some (NpVal.fin (2 / 100)) := by
  have h := funnel_width_range_amended [0, 5] false (by decide)
  refine ⟨?_, h.2 0 0 rfl rfl⟩
  apply h.1
  norm_num [funnelWidthsF, npClip, npDivF, npMaxC, npMinC, maxQ, max_def, min_def]

end ChartLayout
